import Mathlib

/-!
Verification of the frontmatter reordering tool (`reorder_frontmatter.py`).

The development shallowly embeds the program:
* `fnmatch` models Python's `fnmatch.fnmatch(name, pattern)` (POSIX,
  case-sensitive): `*` matches any run, `?` any single character,
  `[...]`/`[!...]` character classes with ranges; an unterminated `[` is a
  literal.
* Python dicts (which preserve insertion order, and on assignment to an
  existing key update the value in place without moving the key) are embedded
  as association lists `List (String × V)` with `dinsert`.
* `reorder_frontmatter`, `matches_pattern`, `extract_frontmatter` and
  `process_file` mirror the functions of the same names in the source;
  the YAML parser and dumper (external library calls) are parameters.
-/

namespace ReorderFM

/-- Whitespace accepted by the regex class `\s` on a Python 3 `str` (the
pattern is compiled without `re.ASCII`, so `\s` is Unicode whitespace):
`Py_UNICODE_ISSPACE`, exactly the characters for which `str.isspace()`
holds — U+0009..U+000D, U+001C..U+001F, space, NEL, NBSP, OGHAM SPACE MARK,
U+2000..U+200A, LINE/PARAGRAPH SEPARATOR, NARROW NO-BREAK SPACE, MEDIUM
MATHEMATICAL SPACE and IDEOGRAPHIC SPACE. -/
def pyIsSpace (c : Char) : Bool :=
  let n := c.toNat
  (decide (0x09 ≤ n) && decide (n ≤ 0x0D))
    || (decide (0x1C ≤ n) && decide (n ≤ 0x1F)) || n == 0x20
    || n == 0x85 || n == 0xA0 || n == 0x1680
    || (decide (0x2000 ≤ n) && decide (n ≤ 0x200A)) || n == 0x2028
    || n == 0x2029 || n == 0x202F || n == 0x205F || n == 0x3000

/-- One item of a glob character class: a literal character or an inclusive range. -/
inductive ClsItem where
  | ch (c : Char)
  | rng (a b : Char)
deriving DecidableEq, Repr

/-- Tokens of a compiled glob pattern, following `fnmatch.translate`. -/
inductive GTok where
  | lit (c : Char)
  | anyChar
  | star
  | cls (neg : Bool) (items : List ClsItem)
deriving DecidableEq, Repr

/-- Index of the `]` closing a character class, scanning the characters after
`[` the way `fnmatch.translate` does: a `]` immediately after `[` or `[!` is
part of the class. `none` when the class is unterminated. -/
def findClassEnd (l : List Char) : Option Nat :=
  let j0 := if l.head? == some '!' then 1 else 0
  let j1 := if l.get? j0 == some ']' then j0 + 1 else j0
  match (l.drop j1).findIdx? (fun c => c == ']') with
  | some i => some (j1 + i)
  | none => none

/-- Parse the body of a character class into items; `a-b` is a range, a `-`
without both endpoints is a literal. -/
def parseItems : List Char → List ClsItem
  | [] => []
  | a :: '-' :: b :: rest => .rng a b :: parseItems rest
  | a :: rest => .ch a :: parseItems rest

/-- Worker for `parsePat`: the fuel argument only makes the recursion
structural (every step consumes at least one character, so fuel equal to the
pattern length never runs out). -/
def parsePatF : Nat → List Char → List GTok
  | _, [] => []
  | 0, _ :: _ => []
  | fuel + 1, c :: rest =>
    if c = '*' then .star :: parsePatF fuel rest
    else if c = '?' then .anyChar :: parsePatF fuel rest
    else if c = '[' then
      match findClassEnd rest with
      | none => .lit '[' :: parsePatF fuel rest
      | some j =>
        match rest.take j with
        | '!' :: bs =>
          .cls true (parseItems bs) :: parsePatF fuel (rest.drop (j + 1))
        | bs => .cls false (parseItems bs) :: parsePatF fuel (rest.drop (j + 1))
    else .lit c :: parsePatF fuel rest

/-- Compile a glob pattern to tokens (the shape produced by
`fnmatch.translate`): an unterminated `[` is a literal character. -/
def parsePat (l : List Char) : List GTok :=
  parsePatF l.length l

/-- Does a character belong to a class body? -/
def clsMember (items : List ClsItem) (c : Char) : Bool :=
  items.any fun it =>
    match it with
    | .ch a => a == c
    | .rng a b => decide (a ≤ c) && decide (c ≤ b)

/-- `gstarAux f s` is true iff `f` accepts some suffix of `s`: a `*` consumes
an arbitrary prefix and the rest of the pattern must match the remaining
suffix. -/
def gstarAux (f : List Char → Bool) : List Char → Bool
  | [] => f []
  | c :: rest => f (c :: rest) || gstarAux f rest

/-- Matcher for compiled glob patterns against a character list (a match is a
full match, as `fnmatch` anchors the translated regex). -/
def gmatch : List GTok → List Char → Bool
  | [], [] => true
  | [], _ :: _ => false
  | .star :: ts, s => gstarAux (gmatch ts) s
  | .anyChar :: _, [] => false
  | .anyChar :: ts, _ :: s' => gmatch ts s'
  | .lit _ :: _, [] => false
  | .lit c :: ts, c' :: s' => c == c' && gmatch ts s'
  | .cls _ _ :: _, [] => false
  | .cls neg items :: ts, c :: s' => (neg != clsMember items c) && gmatch ts s'

/-- `fnmatch.fnmatch(name, pattern)` with POSIX (case-sensitive) semantics. -/
def fnmatch (name pattern : String) : Bool :=
  gmatch (parsePat pattern.data) name.data

/-! ## Python dicts as insertion-ordered association lists -/

/-- `d[k] = v` on a Python dict: if the key is present its value is updated in
place (the key keeps its position); otherwise the pair is appended. -/
def dinsert {V : Type} : List (String × V) → String → V → List (String × V)
  | [], k, v => [(k, v)]
  | (k', v') :: rest, k, v =>
    if k' = k then (k, v) :: rest else (k', v') :: dinsert rest k v

/-- `k in d` / `d[k]` on a Python dict. -/
def dlookup {V : Type} (k : String) : List (String × V) → Option V
  | [] => none
  | (k', v) :: rest => if k' = k then some v else dlookup k rest

/-- The key sequence of a dict, in insertion order. -/
def keys {V : Type} (m : List (String × V)) : List String :=
  m.map Prod.fst

/-- Fold a filtered sequence of entries into a dict by repeated assignment
(`for key, value in src: if pred(key): acc[key] = value`). -/
def insertAll {V : Type} (src : List (String × V)) (pred : String → Bool)
    (acc : List (String × V)) : List (String × V) :=
  src.foldl (fun a kv => if pred kv.1 then dinsert a kv.1 kv.2 else a) acc

/-! ## The program's functions -/

/-- `matches_pattern(key, patterns)` from the source: true if the key
glob-matches any pattern in the list. -/
def matches_pattern (key : String) (patterns : List String) : Bool :=
  patterns.any fun pattern => fnmatch key pattern

/-- The top-placement pass of `reorder_frontmatter` (source lines 115–125):
a pattern containing `*` adds every glob-matching key in original order; any
other pattern is an exact dictionary lookup. -/
def addTopKeys {V : Type} (frontmatter : List (String × V))
    (top_keys : List String) : List (String × V) :=
  top_keys.foldl
    (fun ordered pattern =>
      if '*' ∈ pattern.data then
        insertAll frontmatter (fun key => fnmatch key pattern) ordered
      else
        match dlookup pattern frontmatter with
        | some v => dinsert ordered pattern v
        | none => ordered)
    []

/-- `reorder_frontmatter(frontmatter, top_keys, bottom_keys)` from the source:
top pass, then middle keys (matching no pattern), then
`ordered.update(bottom_matches)`. -/
def reorder_frontmatter {V : Type} (frontmatter : List (String × V))
    (top_keys bottom_keys : List String) : List (String × V) :=
  let ordered := addTopKeys frontmatter top_keys
  let ordered := insertAll frontmatter
    (fun key => !matches_pattern key top_keys && !matches_pattern key bottom_keys)
    ordered
  let bottom_matches := insertAll frontmatter
    (fun key => matches_pattern key bottom_keys) []
  insertAll bottom_matches (fun _ => true) ordered

/-! ## Closed form of the reorderer

`reorderSpec` is a filter-based closed form of `reorder_frontmatter`, proved
equal to it below (for dicts, i.e. inputs without duplicate keys); the
claims about key sets, tie-breaking, identity and idempotence are read off it. -/

/-- Whether the top-placement pass catches key `k` with pattern `p`: a glob
match when the pattern contains `*`, exact equality otherwise. -/
def caught (k p : String) : Bool :=
  if '*' ∈ p.data then fnmatch k p else k == p

/-- The entries of `fm` that pattern `p` catches and that are not already
placed, in original order. -/
def topFilter {V : Type} (fm : List (String × V)) (placed : List String)
    (p : String) : List (String × V) :=
  fm.filter fun kv => caught kv.1 p && decide (kv.1 ∉ placed)

/-- The top segment of the output: for each top pattern in turn, the entries
it catches that were not placed by an earlier pattern, in original order. -/
def topSegment {V : Type} (fm : List (String × V)) (placed : List String) :
    List String → List (String × V)
  | [] => []
  | p :: ps =>
    topFilter fm placed p
      ++ topSegment fm (placed ++ keys (topFilter fm placed p)) ps

/-- Key `k` is placed by the top pass for ruleset `tks`. -/
def topMatched (tks : List String) (k : String) : Bool :=
  tks.any (caught k)

/-- Closed form: top segment, then the keys matching no pattern, then the
bottom-matching keys that the top pass did not already place. -/
def reorderSpec {V : Type} (fm : List (String × V))
    (tks bks : List String) : List (String × V) :=
  topSegment fm [] tks
    ++ fm.filter (fun kv => !matches_pattern kv.1 tks && !matches_pattern kv.1 bks
          && !topMatched tks kv.1)
    ++ fm.filter (fun kv => matches_pattern kv.1 bks && !topMatched tks kv.1)

/-- Every entry of `m` looks up in `fm` to its own value. -/
def SubFm {V : Type} (m fm : List (String × V)) : Prop :=
  ∀ kv ∈ m, dlookup kv.1 fm = some kv.2

/-! ## The Block Parser -/

/-- Structured values a YAML document can hold (opaque to the reordering
logic, which only distinguishes mappings from everything else). -/
inductive Yaml where
  | null
  | bool (b : Bool)
  | num (n : Int)
  | str (s : String)
  | seq (items : List Yaml)
  | map (entries : List (String × Yaml))

/-- Is the parsed value a mapping (`isinstance(frontmatter, dict)`)? -/
def Yaml.isMap : Yaml → Bool
  | .map _ => true
  | _ => false

/-- Length of the maximal whitespace run at the head of the text: the longest
prefix a greedy `\s*` can consume. -/
def wsRunLen (l : List Char) : Nat :=
  (l.takeWhile pyIsSpace).length

/-- Backtracking match of the frontmatter regex
`^---\s*\n(.*?)\n---\s*\n(.*)$` (compiled with DOTALL and anchored via
`re.match`) against the document, returning the two capture groups. The
nesting mirrors the regex engine's search order: each greedy `\s*` backtracks
from longest to shortest, the lazy `(.*?)` grows from shortest to longest,
and the final `(.*)$` always consumes the rest. -/
def matchFM (content : List Char) : Option (List Char × List Char) :=
  match content with
  | '-' :: '-' :: '-' :: t =>
    ((List.range (wsRunLen t + 1)).reverse).findSome? fun k =>
      if t.get? k = some '\n' then
        (List.range ((t.drop (k + 1)).length + 1)).findSome? fun m =>
          if ((t.drop (k + 1)).drop m).take 4 = ['\n', '-', '-', '-'] then
            ((List.range (wsRunLen (((t.drop (k + 1)).drop m).drop 4) + 1)).reverse).findSome?
              fun j =>
                if (((t.drop (k + 1)).drop m).drop 4).get? j = some '\n' then
                  some ((t.drop (k + 1)).take m,
                    ((((t.drop (k + 1)).drop m).drop 4).drop (j + 1)))
                else none
          else none
      else none
  | _ => none

/-- `extract_frontmatter(content)` from the source, parameterized by the YAML
parser (`yaml.safe_load`, an external library call; a `YAMLError` is
`Except.error`): no regex match, a parse error, and a non-mapping parse all
yield `({}, content, False)`. -/
def extract_frontmatter (parse : String → Except Unit Yaml)
    (content : String) : List (String × Yaml) × String × Bool :=
  match matchFM content.data with
  | none => ([], content, false)
  | some (g1, g2) =>
    match parse (String.mk g1) with
    | .error _ => ([], content, false)
    | .ok y =>
      match y with
      | .map m => (m, String.mk g2, true)
      | _ => ([], content, false)

/-- `process_file` from the source, parameterized by the external YAML parser
and dumper, with the write-back modelled as the returned content: `none`
means the file was reported as having no valid frontmatter and was not
rewritten. -/
def process_file (parse : String → Except Unit Yaml)
    (dump : List (String × Yaml) → String) (content : String)
    (top_keys bottom_keys : List String) : Option String :=
  match extract_frontmatter parse content with
  | (_, _, false) => none
  | (frontmatter, remaining_content, true) =>
    some ("---\n" ++ dump (reorder_frontmatter frontmatter top_keys bottom_keys)
      ++ "---\n" ++ remaining_content)

/-- The document begins with a start-delimiter line at position 0: `---`
followed by whitespace containing a newline — exactly the openings the
frontmatter regex can consume. -/
def beginsWithDelimiterLine (content : String) : Bool :=
  match content.data with
  | '-' :: '-' :: '-' :: t => (t.takeWhile pyIsSpace).contains '\n'
  | _ => false

/-! ## Dictionary lemmas -/

variable {V : Type}

theorem keys_append (m m' : List (String × V)) :
    keys (m ++ m') = keys m ++ keys m' :=
  List.map_append _ _ _

theorem mem_keys {k : String} {m : List (String × V)} :
    k ∈ keys m ↔ ∃ v, (k, v) ∈ m := by
  simp only [keys, List.mem_map]
  constructor
  · rintro ⟨⟨a, b⟩, hab, rfl⟩
    exact ⟨b, hab⟩
  · rintro ⟨v, hv⟩
    exact ⟨(k, v), hv, rfl⟩

theorem dlookup_eq_none {k : String} {m : List (String × V)} :
    dlookup k m = none ↔ k ∉ keys m := by
  induction m with
  | nil => simp [dlookup, keys]
  | cons kv rest ih =>
    obtain ⟨k', v'⟩ := kv
    by_cases h : k' = k
    · subst h
      simp [dlookup, keys]
    · simp [dlookup, keys, h, ih, Ne.symm h]

theorem dlookup_mem {k : String} {v : V} {m : List (String × V)}
    (h : dlookup k m = some v) : (k, v) ∈ m := by
  induction m with
  | nil => simp [dlookup] at h
  | cons kv rest ih =>
    obtain ⟨k', v'⟩ := kv
    by_cases hk : k' = k
    · subst hk
      have h' : v' = v := by simpa [dlookup] using h
      subst h'
      exact List.mem_cons_self _ _
    · simp only [dlookup, if_neg hk] at h
      exact List.mem_cons_of_mem _ (ih h)

theorem dlookup_of_mem {k : String} {v : V} {m : List (String × V)}
    (hnd : (keys m).Nodup) (h : (k, v) ∈ m) : dlookup k m = some v := by
  induction m with
  | nil => simp at h
  | cons kv rest ih =>
    obtain ⟨k', v'⟩ := kv
    simp only [keys, List.map_cons, List.nodup_cons] at hnd
    rcases List.mem_cons.1 h with h | h
    · obtain ⟨rfl, rfl⟩ := Prod.mk.injEq .. ▸ h
      simp [dlookup]
    · have hne : k' ≠ k := by
        rintro rfl
        exact hnd.1 (mem_keys.2 ⟨v, h⟩)
      simp only [dlookup, if_neg hne]
      exact ih hnd.2 h

theorem dinsert_of_not_mem {k : String} {v : V} {m : List (String × V)}
    (h : k ∉ keys m) : dinsert m k v = m ++ [(k, v)] := by
  induction m with
  | nil => rfl
  | cons kv rest ih =>
    obtain ⟨k', v'⟩ := kv
    simp only [keys, List.map_cons, List.mem_cons] at h
    push_neg at h
    have hne : k' ≠ k := fun e => h.1 e.symm
    simp only [dinsert, if_neg hne, List.cons_append, List.cons.injEq, true_and]
    exact ih h.2

theorem dinsert_of_agree {k : String} {v : V} {m : List (String × V)}
    (hmem : k ∈ keys m) (hag : ∀ v', (k, v') ∈ m → v' = v) :
    dinsert m k v = m := by
  induction m with
  | nil => simp [keys] at hmem
  | cons kv rest ih =>
    obtain ⟨k', v'⟩ := kv
    by_cases hk : k' = k
    · subst hk
      have : v' = v := hag v' (List.mem_cons_self _ _)
      subst this
      simp [dinsert]
    · simp only [keys, List.map_cons, List.mem_cons] at hmem
      rcases hmem with hmem | hmem
      · exact absurd hmem.symm hk
      · simp only [dinsert, if_neg hk, List.cons.injEq, true_and]
        exact ih hmem fun v' hv' => hag v' (List.mem_cons_of_mem _ hv')

/-- The central fold lemma: pouring entries of `src` (no duplicate keys) into a
dict `acc` whose values agree with `src` on shared keys appends exactly the
`pred`-selected entries of `src` whose keys are new, in order. -/
theorem insertAll_eq_append {src : List (String × V)} {pred : String → Bool}
    {acc : List (String × V)} (hnd : (keys src).Nodup)
    (hag : ∀ kv ∈ src, ∀ v', (kv.1, v') ∈ acc → v' = kv.2) :
    insertAll src pred acc
      = acc ++ src.filter fun kv => pred kv.1 && decide (kv.1 ∉ keys acc) := by
  induction src generalizing acc with
  | nil => simp [insertAll]
  | cons kv src' ih =>
    obtain ⟨k, v⟩ := kv
    simp only [keys, List.map_cons, List.nodup_cons] at hnd
    rw [insertAll, List.foldl_cons]
    by_cases hp : pred k = true
    · by_cases hk : k ∈ keys acc
      · have hstep : (if pred (k, v).1 then dinsert acc (k, v).1 (k, v).2 else acc) = acc := by
          simp only [hp, if_true]
          exact dinsert_of_agree hk fun v' hv' =>
            hag (k, v) (List.mem_cons_self _ _) v' hv'
        rw [hstep]
        have := @ih acc hnd.2
          (fun kv h v' hv' => hag kv (List.mem_cons_of_mem _ h) v' hv')
        rw [insertAll] at this
        rw [this]
        simp [List.filter_cons, hp, hk]
      · have hstep : (if pred (k, v).1 then dinsert acc (k, v).1 (k, v).2 else acc)
            = acc ++ [(k, v)] := by
          simp only [hp, if_true]
          exact dinsert_of_not_mem hk
        rw [hstep]
        have hag' : ∀ kv ∈ src', ∀ v', (kv.1, v') ∈ acc ++ [(k, v)] → v' = kv.2 := by
          intro kv h v' hv'
          rcases List.mem_append.1 hv' with hv' | hv'
          · exact hag kv (List.mem_cons_of_mem _ h) v' hv'
          · simp only [List.mem_singleton, Prod.mk.injEq] at hv'
            exfalso
            apply hnd.1
            rw [← hv'.1]
            exact mem_keys.2 ⟨kv.2, h⟩
        have := @ih (acc ++ [(k, v)]) hnd.2 hag'
        rw [insertAll] at this
        rw [this]
        have hfc : (src'.filter fun kv => pred kv.1 && decide (kv.1 ∉ keys (acc ++ [(k, v)])))
            = src'.filter fun kv => pred kv.1 && decide (kv.1 ∉ keys acc) := by
          apply List.filter_congr
          intro kv hkv
          have hne : kv.1 ≠ k := by
            rintro h
            exact hnd.1 (h ▸ mem_keys.2 ⟨kv.2, hkv⟩)
          have hiff : (kv.1 ∈ keys (acc ++ [(k, v)])) ↔ kv.1 ∈ keys acc := by
            simp [keys, List.map_append, hne]
          rw [decide_eq_decide.mpr (not_congr hiff)]
        rw [hfc]
        simp [List.filter_cons, hp, hk]
    · simp only [Bool.not_eq_true] at hp
      have hstep : (if pred (k, v).1 then dinsert acc (k, v).1 (k, v).2 else acc) = acc := by
        simp [hp]
      rw [hstep]
      have := @ih acc hnd.2
        (fun kv h v' hv' => hag kv (List.mem_cons_of_mem _ h) v' hv')
      rw [insertAll] at this
      rw [this]
      simp [List.filter_cons, hp]

/-! ## Lemmas about the closed form -/

theorem mem_keys_filter {k : String} {q : String × V → Bool}
    {fm : List (String × V)} :
    k ∈ keys (fm.filter q) ↔ ∃ v, (k, v) ∈ fm ∧ q (k, v) = true := by
  rw [mem_keys]
  constructor
  · rintro ⟨v, hv⟩
    exact ⟨v, (List.mem_filter.1 hv).1, (List.mem_filter.1 hv).2⟩
  · rintro ⟨v, hv, hq⟩
    exact ⟨v, List.mem_filter.2 ⟨hv, hq⟩⟩

theorem nodup_keys_filter {q : String × V → Bool} {fm : List (String × V)}
    (h : (keys fm).Nodup) : (keys (fm.filter q)).Nodup :=
  List.Nodup.sublist (List.Sublist.map Prod.fst (List.filter_sublist fm)) h

theorem mem_keys_topFilter {k : String} {fm : List (String × V)}
    {placed : List String} {p : String} :
    k ∈ keys (topFilter fm placed p)
      ↔ k ∈ keys fm ∧ caught k p = true ∧ k ∉ placed := by
  rw [topFilter, mem_keys_filter]
  constructor
  · rintro ⟨v, hv, hq⟩
    simp only [Bool.and_eq_true, decide_eq_true_eq] at hq
    exact ⟨mem_keys.2 ⟨v, hv⟩, hq.1, hq.2⟩
  · rintro ⟨hf, hc, hp⟩
    obtain ⟨v, hv⟩ := mem_keys.1 hf
    exact ⟨v, hv, by simp [hc, hp]⟩

theorem mem_topFilter {kv : String × V} {fm : List (String × V)}
    {placed : List String} {p : String} (h : kv ∈ topFilter fm placed p) :
    kv ∈ fm :=
  List.mem_of_mem_filter h

theorem caught_of_mem_topFilter {kv : String × V} {fm : List (String × V)}
    {placed : List String} {p : String} (h : kv ∈ topFilter fm placed p) :
    caught kv.1 p = true ∧ kv.1 ∉ placed := by
  have := List.of_mem_filter h
  simpa using this

theorem mem_topSegment {kv : String × V} {fm : List (String × V)} :
    ∀ {ps placed : List String}, kv ∈ topSegment fm placed ps → kv ∈ fm := by
  intro ps
  induction ps with
  | nil => intro placed h; simp [topSegment] at h
  | cons p ps ih =>
    intro placed h
    rw [topSegment] at h
    rcases List.mem_append.1 h with h | h
    · exact mem_topFilter h
    · exact ih h

theorem mem_keys_topSegment {k : String} {fm : List (String × V)} :
    ∀ {ps placed : List String},
      k ∈ keys (topSegment fm placed ps)
        ↔ k ∈ keys fm ∧ k ∉ placed ∧ ps.any (caught k) = true := by
  intro ps
  induction ps with
  | nil => intro placed; simp [topSegment, keys]
  | cons p ps ih =>
    intro placed
    rw [topSegment, keys_append, List.mem_append, mem_keys_topFilter, ih,
      List.any_cons]
    constructor
    · rintro (⟨hf, hc, hp⟩ | ⟨hf, hp, ha⟩)
      · exact ⟨hf, hp, by simp [hc]⟩
      · rw [List.mem_append] at hp
        push_neg at hp
        exact ⟨hf, hp.1, by simp [ha]⟩
    · rintro ⟨hf, hp, ha⟩
      rw [Bool.or_eq_true] at ha
      by_cases hc : caught k p = true
      · exact Or.inl ⟨hf, hc, hp⟩
      · rcases ha with ha | ha
        · exact absurd ha hc
        · refine Or.inr ⟨hf, ?_, ha⟩
          rw [List.mem_append]
          push_neg
          exact ⟨hp, fun hk => hc (mem_keys_topFilter.1 hk).2.1⟩

theorem nodup_keys_topSegment {fm : List (String × V)}
    (hfm : (keys fm).Nodup) :
    ∀ (ps placed : List String), (keys (topSegment fm placed ps)).Nodup := by
  intro ps
  induction ps with
  | nil => intro placed; simp [topSegment, keys]
  | cons p ps ih =>
    intro placed
    rw [topSegment, keys_append, List.nodup_append]
    refine ⟨nodup_keys_filter hfm, ih _, ?_⟩
    intro a ha ha'
    have h2 := (mem_keys_topSegment.1 ha').2.1
    rw [List.mem_append] at h2
    push_neg at h2
    exact h2.2 ha

theorem subFm_refl {fm : List (String × V)} (hfm : (keys fm).Nodup) :
    SubFm fm fm :=
  fun kv hkv => dlookup_of_mem hfm (by exact hkv)

theorem subFm_append {m₁ m₂ fm : List (String × V)} (h₁ : SubFm m₁ fm)
    (h₂ : SubFm m₂ fm) : SubFm (m₁ ++ m₂) fm := by
  intro kv hkv
  rcases List.mem_append.1 hkv with h | h
  · exact h₁ kv h
  · exact h₂ kv h

theorem subFm_of_entries {m fm : List (String × V)} (hfm : (keys fm).Nodup)
    (h : ∀ kv ∈ m, kv ∈ fm) : SubFm m fm :=
  fun kv hkv => dlookup_of_mem hfm (h kv hkv)

theorem subFm_filter {q : String × V → Bool} {fm : List (String × V)}
    (hfm : (keys fm).Nodup) : SubFm (fm.filter q) fm :=
  subFm_of_entries hfm fun _ hkv => List.mem_of_mem_filter hkv

theorem subFm_topSegment {fm : List (String × V)} (hfm : (keys fm).Nodup)
    {ps placed : List String} : SubFm (topSegment fm placed ps) fm :=
  subFm_of_entries hfm fun _ hkv => mem_topSegment hkv

theorem agree_of_subFm {src acc fm : List (String × V)}
    (hs : SubFm src fm) (ha : SubFm acc fm) :
    ∀ kv ∈ src, ∀ v', (kv.1, v') ∈ acc → v' = kv.2 := by
  intro kv hkv v' hv'
  have h1 := hs kv hkv
  have h2 := ha (kv.1, v') hv'
  rw [h1] at h2
  exact (Option.some_inj.1 h2).symm

theorem filter_key_eq_singleton {fm : List (String × V)}
    (hfm : (keys fm).Nodup) {p : String} {v : V}
    (hl : dlookup p fm = some v) :
    fm.filter (fun kv => kv.1 == p) = [(p, v)] := by
  induction fm with
  | nil => simp [dlookup] at hl
  | cons kv rest ih =>
    obtain ⟨k', v'⟩ := kv
    simp only [keys, List.map_cons, List.nodup_cons] at hfm
    by_cases hk : k' = p
    · subst hk
      have hv : v' = v := by simpa [dlookup] using hl
      subst hv
      simp only [List.filter_cons, beq_self_eq_true, if_pos]
      rw [List.filter_eq_nil_iff.2, List.cons.injEq]
      · exact ⟨rfl, rfl⟩
      · intro kv hkv
        simp only [beq_iff_eq]
        rintro rfl
        exact hfm.1 (mem_keys.2 ⟨kv.2, hkv⟩)
    · have hl' : dlookup p rest = some v := by
        simpa [dlookup, hk] using hl
      simp only [List.filter_cons, beq_iff_eq, hk, if_neg, decide_eq_true_eq]
      exact ih hfm.2 hl'

/-- The top-placement pass computes exactly the top segment of the closed
form. -/
theorem addTopKeys_eq_topSegment {fm : List (String × V)}
    (hfm : (keys fm).Nodup) (tks : List String) :
    addTopKeys fm tks = topSegment fm [] tks := by
  have main : ∀ (ps : List String) (acc : List (String × V)), SubFm acc fm →
      List.foldl
        (fun ordered pattern =>
          if '*' ∈ pattern.data then
            insertAll fm (fun key => fnmatch key pattern) ordered
          else
            match dlookup pattern fm with
            | some v => dinsert ordered pattern v
            | none => ordered)
        acc ps
      = acc ++ topSegment fm (keys acc) ps := by
    intro ps
    induction ps with
    | nil => intro acc _; simp [topSegment]
    | cons p ps ih =>
      intro acc hacc
      rw [List.foldl_cons]
      by_cases hs : '*' ∈ p.data
      · rw [if_pos hs]
        have h1 : insertAll fm (fun key => fnmatch key p) acc
            = acc ++ topFilter fm (keys acc) p := by
          rw [insertAll_eq_append hfm (agree_of_subFm (subFm_refl hfm) hacc),
            topFilter]
          congr 1
          apply List.filter_congr
          intro kv _
          simp [caught, hs]
        have hsub2 : SubFm (acc ++ topFilter fm (keys acc) p) fm :=
          subFm_append hacc (subFm_of_entries hfm fun _ hkv => mem_topFilter hkv)
        rw [h1, ih _ hsub2, topSegment, keys_append, List.append_assoc]
      · rw [if_neg hs]
        cases hl : dlookup p fm with
        | some v =>
          by_cases hacc' : p ∈ keys acc
          · have h1 : dinsert acc p v = acc := by
              apply dinsert_of_agree hacc'
              intro v' hv'
              have h2 := hacc (p, v') hv'
              rw [hl] at h2
              exact (Option.some_inj.1 h2).symm
            have hF : topFilter fm (keys acc) p = [] := by
              rw [topFilter, List.filter_eq_nil_iff]
              intro kv hkv h
              simp only [Bool.and_eq_true, decide_eq_true_eq] at h
              rw [caught, if_neg hs, beq_iff_eq] at h
              exact h.2 (h.1 ▸ hacc')
            change List.foldl _ (dinsert acc p v) _ = _
            rw [h1, topSegment, hF]
            simp only [List.nil_append, keys, List.map_nil, List.append_nil]
            exact ih _ hacc
          · have h1 : dinsert acc p v = acc ++ [(p, v)] :=
              dinsert_of_not_mem hacc'
            have hF : topFilter fm (keys acc) p = [(p, v)] := by
              rw [topFilter, ← filter_key_eq_singleton hfm hl]
              apply List.filter_congr
              intro kv _
              by_cases hk : kv.1 = p
              · simp [caught, hs, hk, hacc']
              · simp [caught, hs, hk]
            have hsub : SubFm (acc ++ [(p, v)]) fm := by
              apply subFm_append hacc
              intro kv hkv
              simp only [List.mem_singleton] at hkv
              subst hkv
              exact hl
            change List.foldl _ (dinsert acc p v) _ = _
            rw [h1, ih _ hsub, topSegment, hF, keys_append,
              List.append_assoc]
        | none =>
          have hF : topFilter fm (keys acc) p = [] := by
            rw [topFilter, List.filter_eq_nil_iff]
            intro kv hkv h
            simp only [Bool.and_eq_true, decide_eq_true_eq] at h
            rw [caught, if_neg hs, beq_iff_eq] at h
            have : p ∈ keys fm := h.1 ▸ mem_keys.2 ⟨kv.2, hkv⟩
            exact dlookup_eq_none.1 hl this
          change List.foldl _ acc _ = _
          rw [topSegment, hF]
          simp only [List.nil_append, keys, List.map_nil, List.append_nil]
          exact ih _ hacc
  have h0 := main tks [] (fun kv hkv => by simp at hkv)
  simpa [addTopKeys, keys] using h0

/-- `reorder_frontmatter` equals its closed form on every dict (no duplicate
keys). -/
theorem reorder_eq_spec {fm : List (String × V)} (hfm : (keys fm).Nodup)
    (tks bks : List String) :
    reorder_frontmatter fm tks bks = reorderSpec fm tks bks := by
  have hTsub : SubFm (topSegment fm [] tks) fm := subFm_topSegment hfm
  have hmemT : ∀ kv : String × V, kv ∈ fm →
      (kv.1 ∈ keys (topSegment fm [] tks) ↔ topMatched tks kv.1 = true) := by
    intro kv hkv
    rw [mem_keys_topSegment, topMatched]
    simp [mem_keys.2 ⟨kv.2, hkv⟩]
  have h2 : insertAll fm
      (fun key => !matches_pattern key tks && !matches_pattern key bks)
      (topSegment fm [] tks)
      = topSegment fm [] tks
        ++ fm.filter (fun kv => !matches_pattern kv.1 tks
            && !matches_pattern kv.1 bks && !topMatched tks kv.1) := by
    rw [insertAll_eq_append hfm (agree_of_subFm (subFm_refl hfm) hTsub)]
    congr 1
    apply List.filter_congr
    intro kv hkv
    rw [Bool.and_assoc, Bool.and_assoc]
    congr 2
    cases ht : topMatched tks kv.1 with
    | false => simp [hmemT kv hkv, ht]
    | true => simp [hmemT kv hkv, ht]
  have h3 : insertAll fm (fun key => matches_pattern key bks)
      ([] : List (String × V))
      = fm.filter (fun kv => matches_pattern kv.1 bks) := by
    rw [insertAll_eq_append hfm (by intro kv _ v' hv'; simp at hv')]
    rw [List.nil_append]
    apply List.filter_congr
    intro kv _
    simp [keys]
  show insertAll
      (insertAll fm (fun key => matches_pattern key bks) [])
      (fun _ => true)
      (insertAll fm
        (fun key => !matches_pattern key tks && !matches_pattern key bks)
        (addTopKeys fm tks))
    = reorderSpec fm tks bks
  rw [addTopKeys_eq_topSegment hfm, h2, h3]
  have ho2sub : SubFm (topSegment fm [] tks
      ++ fm.filter (fun kv => !matches_pattern kv.1 tks
          && !matches_pattern kv.1 bks && !topMatched tks kv.1)) fm :=
    subFm_append hTsub (subFm_filter hfm)
  have h4 : insertAll (fm.filter (fun kv => matches_pattern kv.1 bks))
      (fun _ => true)
      (topSegment fm [] tks
        ++ fm.filter (fun kv => !matches_pattern kv.1 tks
            && !matches_pattern kv.1 bks && !topMatched tks kv.1))
      = (topSegment fm [] tks
          ++ fm.filter (fun kv => !matches_pattern kv.1 tks
              && !matches_pattern kv.1 bks && !topMatched tks kv.1))
        ++ fm.filter (fun kv => matches_pattern kv.1 bks
            && !topMatched tks kv.1) := by
    rw [insertAll_eq_append (nodup_keys_filter hfm)
      (agree_of_subFm (subFm_filter hfm) ho2sub)]
    congr 1
    rw [List.filter_filter]
    apply List.filter_congr
    intro kv hkv
    cases hb : matches_pattern kv.1 bks with
    | false => simp [hb]
    | true =>
      have hkm : kv.1 ∉ keys (fm.filter (fun kv => !matches_pattern kv.1 tks
          && !matches_pattern kv.1 bks && !topMatched tks kv.1)) := by
        intro hmem
        obtain ⟨v, _, hq⟩ := mem_keys_filter.1 hmem
        simp only [Bool.and_eq_true, Bool.not_eq_true'] at hq
        rw [hq.1.2] at hb
        exact Bool.false_ne_true hb
      have hiff : (kv.1 ∈ keys (topSegment fm [] tks
          ++ fm.filter (fun kv => !matches_pattern kv.1 tks
              && !matches_pattern kv.1 bks && !topMatched tks kv.1)))
          ↔ topMatched tks kv.1 = true := by
        rw [keys_append, List.mem_append]
        constructor
        · rintro (h | h)
          · exact (hmemT kv hkv).1 h
          · exact absurd h hkm
        · intro h
          exact Or.inl ((hmemT kv hkv).2 h)
      cases ht : topMatched tks kv.1 with
      | false => simp [hb, hiff, ht]
      | true => simp [hb, hiff, ht]
  rw [h4, reorderSpec, List.append_assoc]

/-! ## Idempotence of the closed form -/

theorem topSegment_append_uncaught {A D : List (String × V)} :
    ∀ {ps placed : List String},
      (∀ kv ∈ D, ∀ p ∈ ps, caught kv.1 p = false) →
      topSegment (A ++ D) placed ps = topSegment A placed ps := by
  intro ps
  induction ps with
  | nil => intro placed _; simp [topSegment]
  | cons p ps ih =>
    intro placed hD
    have hfD : topFilter D placed p = [] := by
      rw [topFilter, List.filter_eq_nil_iff]
      intro kv hkv h
      simp only [Bool.and_eq_true] at h
      rw [hD kv hkv p (List.mem_cons_self _ _)] at h
      exact Bool.false_ne_true h.1
    have hfa : topFilter (A ++ D) placed p = topFilter A placed p := by
      rw [topFilter, topFilter, List.filter_append]
      rw [show (List.filter (fun kv => caught kv.1 p && decide (kv.1 ∉ placed)) D)
        = topFilter D placed p from rfl, hfD, List.append_nil]
    rw [topSegment, topSegment, hfa,
      ih fun kv hkv q hq => hD kv hkv q (List.mem_cons_of_mem _ hq)]

theorem topSegment_drop_placed {A D : List (String × V)} :
    ∀ {ps placed : List String}, (∀ kv ∈ D, kv.1 ∈ placed) →
      topSegment (D ++ A) placed ps = topSegment A placed ps := by
  intro ps
  induction ps with
  | nil => intro placed _; simp [topSegment]
  | cons p ps ih =>
    intro placed hD
    have hfD : topFilter D placed p = [] := by
      rw [topFilter, List.filter_eq_nil_iff]
      intro kv hkv h
      simp only [Bool.and_eq_true, decide_eq_true_eq] at h
      exact h.2 (hD kv hkv)
    have hfa : topFilter (D ++ A) placed p = topFilter A placed p := by
      rw [topFilter, topFilter, List.filter_append]
      rw [show (List.filter (fun kv => caught kv.1 p && decide (kv.1 ∉ placed)) D)
        = topFilter D placed p from rfl, hfD, List.nil_append]
    rw [topSegment, topSegment, hfa,
      ih fun kv hkv => List.mem_append_left _ (hD kv hkv)]

theorem topSegment_self {fm : List (String × V)} :
    ∀ {ps placed : List String},
      topSegment (topSegment fm placed ps) placed ps
        = topSegment fm placed ps := by
  intro ps
  induction ps with
  | nil => simp [topSegment]
  | cons p ps ih =>
    intro placed
    have hFF : topFilter (topFilter fm placed p) placed p
        = topFilter fm placed p := by
      rw [topFilter, List.filter_eq_self]
      intro kv hkv
      have h := caught_of_mem_topFilter hkv
      simp [h.1, h.2]
    have hFT : topFilter
        (topSegment fm (placed ++ keys (topFilter fm placed p)) ps) placed p
        = [] := by
      rw [topFilter, List.filter_eq_nil_iff]
      intro kv hkv h
      simp only [Bool.and_eq_true, decide_eq_true_eq] at h
      have hfm' : kv ∈ fm := mem_topSegment hkv
      have hkeys : kv.1 ∈ keys (topFilter fm placed p) :=
        mem_keys_topFilter.2 ⟨mem_keys.2 ⟨kv.2, hfm'⟩, h.1, h.2⟩
      have hmem : kv.1 ∈ keys (topSegment fm
          (placed ++ keys (topFilter fm placed p)) ps) :=
        mem_keys.2 ⟨kv.2, hkv⟩
      have := (mem_keys_topSegment.1 hmem).2.1
      exact this (List.mem_append_right _ hkeys)
    conv_lhs => rw [topSegment]
    rw [topSegment]
    rw [show topFilter (topFilter fm placed p
        ++ topSegment fm (placed ++ keys (topFilter fm placed p)) ps) placed p
      = topFilter fm placed p by
        rw [topFilter, List.filter_append,
          show (List.filter (fun kv => caught kv.1 p && decide (kv.1 ∉ placed))
              (topFilter fm placed p))
            = topFilter (topFilter fm placed p) placed p from rfl,
          show (List.filter (fun kv => caught kv.1 p && decide (kv.1 ∉ placed))
              (topSegment fm (placed ++ keys (topFilter fm placed p)) ps))
            = topFilter (topSegment fm
                (placed ++ keys (topFilter fm placed p)) ps) placed p from rfl,
          hFF, hFT, List.append_nil]]
    rw [topSegment_drop_placed
      (fun kv hkv => List.mem_append_right _
        (mem_keys.2 ⟨kv.2, hkv⟩)),
      ih]

theorem of_mem_mid {fm : List (String × V)} {tks bks : List String}
    {kv : String × V}
    (h : kv ∈ fm.filter (fun kv => !matches_pattern kv.1 tks
        && !matches_pattern kv.1 bks && !topMatched tks kv.1)) :
    matches_pattern kv.1 tks = false ∧ matches_pattern kv.1 bks = false
      ∧ topMatched tks kv.1 = false := by
  have := List.of_mem_filter h
  simp only [Bool.and_eq_true, Bool.not_eq_true'] at this
  exact ⟨this.1.1, this.1.2, this.2⟩

theorem of_mem_bot {fm : List (String × V)} {tks bks : List String}
    {kv : String × V}
    (h : kv ∈ fm.filter (fun kv => matches_pattern kv.1 bks
        && !topMatched tks kv.1)) :
    matches_pattern kv.1 bks = true ∧ topMatched tks kv.1 = false := by
  have := List.of_mem_filter h
  simp only [Bool.and_eq_true, Bool.not_eq_true'] at this
  exact this

theorem any_caught_of_mem_topSegment {fm : List (String × V)}
    {ps placed : List String} {kv : String × V}
    (h : kv ∈ topSegment fm placed ps) : ps.any (caught kv.1) = true :=
  (mem_keys_topSegment.1 (mem_keys.2 ⟨kv.2, by simpa using h⟩)).2.2

theorem caught_false_of_not_topMatched {k : String} {tks : List String}
    (h : topMatched tks k = false) {p : String} (hp : p ∈ tks) :
    caught k p = false := by
  rw [topMatched] at h
  simpa using List.any_eq_false.1 h p hp

/-- The closed form is idempotent. -/
theorem reorderSpec_idem (fm : List (String × V)) (tks bks : List String) :
    reorderSpec (reorderSpec fm tks bks) tks bks = reorderSpec fm tks bks := by
  have hmmem : ∀ kv ∈ fm.filter (fun kv => !matches_pattern kv.1 tks
      && !matches_pattern kv.1 bks && !topMatched tks kv.1),
      ∀ p ∈ tks, caught kv.1 p = false := fun kv hkv p hp =>
    caught_false_of_not_topMatched (of_mem_mid hkv).2.2 hp
  have hbmem : ∀ kv ∈ fm.filter (fun kv => matches_pattern kv.1 bks
      && !topMatched tks kv.1),
      ∀ p ∈ tks, caught kv.1 p = false := fun kv hkv p hp =>
    caught_false_of_not_topMatched (of_mem_bot hkv).2 hp
  have h1 : topSegment (reorderSpec fm tks bks) [] tks
      = topSegment fm [] tks := by
    rw [reorderSpec, topSegment_append_uncaught hbmem,
      topSegment_append_uncaught hmmem, topSegment_self]
  have hTnil : ∀ q : String × V → Bool,
      (∀ kv : String × V, topMatched tks kv.1 = true → q kv = false) →
      (topSegment fm [] tks).filter q = [] := by
    intro q hq
    rw [List.filter_eq_nil_iff]
    intro kv hkv h
    rw [hq kv (any_caught_of_mem_topSegment hkv)] at h
    exact Bool.false_ne_true h
  have h2 : (reorderSpec fm tks bks).filter
      (fun kv => !matches_pattern kv.1 tks && !matches_pattern kv.1 bks
        && !topMatched tks kv.1)
      = fm.filter (fun kv => !matches_pattern kv.1 tks
          && !matches_pattern kv.1 bks && !topMatched tks kv.1) := by
    have e1 : (topSegment fm [] tks).filter
        (fun kv => !matches_pattern kv.1 tks && !matches_pattern kv.1 bks
          && !topMatched tks kv.1) = [] :=
      hTnil _ (fun kv ht => by simp [ht])
    have e2 : (fm.filter (fun kv => !matches_pattern kv.1 tks
        && !matches_pattern kv.1 bks && !topMatched tks kv.1)).filter
        (fun kv => !matches_pattern kv.1 tks && !matches_pattern kv.1 bks
          && !topMatched tks kv.1)
        = fm.filter (fun kv => !matches_pattern kv.1 tks
            && !matches_pattern kv.1 bks && !topMatched tks kv.1) :=
      List.filter_eq_self.2
        fun kv hkv => by have := List.of_mem_filter hkv; simpa using this
    have e3 : (fm.filter (fun kv => matches_pattern kv.1 bks
        && !topMatched tks kv.1)).filter
        (fun kv => !matches_pattern kv.1 tks && !matches_pattern kv.1 bks
          && !topMatched tks kv.1) = [] := by
      rw [List.filter_eq_nil_iff]
      intro kv hkv h
      have hb := (of_mem_bot hkv).1
      simp only [Bool.and_eq_true, Bool.not_eq_true'] at h
      rw [h.1.2] at hb
      exact Bool.false_ne_true hb
    rw [reorderSpec, List.filter_append, List.filter_append, e1, e2, e3,
      List.nil_append, List.append_nil]
  have h3 : (reorderSpec fm tks bks).filter
      (fun kv => matches_pattern kv.1 bks && !topMatched tks kv.1)
      = fm.filter (fun kv => matches_pattern kv.1 bks
          && !topMatched tks kv.1) := by
    have e1 : (topSegment fm [] tks).filter
        (fun kv => matches_pattern kv.1 bks && !topMatched tks kv.1) = [] :=
      hTnil _ (fun kv ht => by simp [ht])
    have e2 : (fm.filter (fun kv => !matches_pattern kv.1 tks
        && !matches_pattern kv.1 bks && !topMatched tks kv.1)).filter
        (fun kv => matches_pattern kv.1 bks && !topMatched tks kv.1) = [] := by
      rw [List.filter_eq_nil_iff]
      intro kv hkv h
      have hm := (of_mem_mid hkv).2.1
      simp only [Bool.and_eq_true] at h
      rw [hm] at h
      exact Bool.false_ne_true h.1
    have e3 : (fm.filter (fun kv => matches_pattern kv.1 bks
        && !topMatched tks kv.1)).filter
        (fun kv => matches_pattern kv.1 bks && !topMatched tks kv.1)
        = fm.filter (fun kv => matches_pattern kv.1 bks
            && !topMatched tks kv.1) :=
      List.filter_eq_self.2
        fun kv hkv => by have := List.of_mem_filter hkv; simpa using this
    rw [reorderSpec, List.filter_append, List.filter_append, e1, e2, e3,
      List.nil_append, List.nil_append]
  conv_lhs => rw [reorderSpec]
  rw [h1, h2, h3, reorderSpec]

theorem nodup_keys_reorderSpec {fm : List (String × V)}
    (hfm : (keys fm).Nodup) (tks bks : List String) :
    (keys (reorderSpec fm tks bks)).Nodup := by
  rw [reorderSpec, keys_append, keys_append, List.nodup_append,
    List.nodup_append]
  refine ⟨⟨nodup_keys_topSegment hfm _ _, nodup_keys_filter hfm, ?_⟩,
    nodup_keys_filter hfm, ?_⟩
  · intro a haT ham
    obtain ⟨v, _, hq⟩ := mem_keys_filter.1 ham
    simp only [Bool.and_eq_true, Bool.not_eq_true'] at hq
    have ht : topMatched tks a = true := (mem_keys_topSegment.1 haT).2.2
    rw [hq.2] at ht
    exact Bool.false_ne_true ht
  · intro a ha hab
    obtain ⟨v, _, hq⟩ := mem_keys_filter.1 hab
    simp only [Bool.and_eq_true, Bool.not_eq_true'] at hq
    rcases List.mem_append.1 ha with haT | ham
    · have ht : topMatched tks a = true := (mem_keys_topSegment.1 haT).2.2
      rw [hq.2] at ht
      exact Bool.false_ne_true ht
    · obtain ⟨w, _, hq'⟩ := mem_keys_filter.1 ham
      simp only [Bool.and_eq_true, Bool.not_eq_true'] at hq'
      rw [hq'.1.2] at hq
      exact Bool.false_ne_true hq.1

/-! ## Patterns without glob metacharacters match only themselves -/

theorem parsePat_of_no_special {l : List Char}
    (h : ∀ c ∈ l, c ≠ '*' ∧ c ≠ '?' ∧ c ≠ '[') :
    parsePat l = l.map GTok.lit := by
  induction l with
  | nil => rfl
  | cons c rest ih =>
    obtain ⟨h1, h2, h3⟩ := h c (List.mem_cons_self _ _)
    show parsePatF (rest.length + 1) (c :: rest) = _
    rw [parsePatF, if_neg h1, if_neg h2, if_neg h3, List.map_cons]
    exact congrArg _ (ih fun d hd => h d (List.mem_cons_of_mem _ hd))

theorem gmatch_lit_iff : ∀ (l s : List Char),
    gmatch (l.map GTok.lit) s = true ↔ s = l
  | [], [] => by simp [gmatch]
  | [], c :: s' => by simp [gmatch]
  | c :: l', [] => by simp [gmatch]
  | c :: l', c' :: s' => by
    simp only [List.map_cons, gmatch, Bool.and_eq_true, beq_iff_eq]
    rw [gmatch_lit_iff l' s']
    constructor
    · rintro ⟨rfl, rfl⟩
      rfl
    · intro h
      injection h with h1 h2
      exact ⟨h1.symm, h2⟩

/-- A pattern containing no glob metacharacter matches exactly itself. -/
theorem fnmatch_literal {name pattern : String}
    (h : ∀ c ∈ pattern.data, c ≠ '*' ∧ c ≠ '?' ∧ c ≠ '[') :
    fnmatch name pattern = true ↔ name = pattern := by
  rw [fnmatch, parsePat_of_no_special h, gmatch_lit_iff]
  constructor
  · intro hd
    exact String.ext hd
  · rintro rfl
    rfl

/-! ## The claims -/

/-- Claim C1 is false as stated: with the map `{ab: 0}` and the single top
pattern `"a?"` (a glob metacharacter but no `*`), the middle-exclusion test
glob-matches `ab` while the top pass only does an exact lookup, so the key is
dropped and the output key set differs from the input's. -/
theorem C1_counterexample :
    reorder_frontmatter [("ab", (0 : Nat))] ["a?"] [] = []
      ∧ "ab" ∈ keys [("ab", (0 : Nat))] := by decide

/-- Claim C1 (amended): key-set preservation holds for every ruleset whose
top patterns each either contain `*` or contain neither `?` nor `[` (bottom
patterns are unrestricted): the output keys are then a permutation of the
input keys — none dropped, none duplicated — and every key keeps its
original, untransformed value. -/
theorem C1_keyset_preservation {V : Type} {fm : List (String × V)}
    (hfm : (keys fm).Nodup) (tks bks : List String)
    (htop : ∀ p ∈ tks, '*' ∈ p.data ∨ ('?' ∉ p.data ∧ '[' ∉ p.data)) :
    (keys (reorder_frontmatter fm tks bks)).Perm (keys fm)
      ∧ ∀ k, dlookup k (reorder_frontmatter fm tks bks) = dlookup k fm := by
  rw [reorder_eq_spec hfm]
  have hndR := nodup_keys_reorderSpec hfm tks bks
  have hmem : ∀ k, k ∈ keys (reorderSpec fm tks bks) ↔ k ∈ keys fm := by
    intro k
    constructor
    · intro hk
      rw [reorderSpec, keys_append, keys_append] at hk
      rcases List.mem_append.1 hk with hk | hk
      · rcases List.mem_append.1 hk with hk | hk
        · exact (mem_keys_topSegment.1 hk).1
        · obtain ⟨v, hv, _⟩ := mem_keys_filter.1 hk
          exact mem_keys.2 ⟨v, hv⟩
      · obtain ⟨v, hv, _⟩ := mem_keys_filter.1 hk
        exact mem_keys.2 ⟨v, hv⟩
    · intro hk
      rw [reorderSpec, keys_append, keys_append]
      by_cases ht : topMatched tks k = true
      · exact List.mem_append_left _ (List.mem_append_left _
          (mem_keys_topSegment.2 ⟨hk, by simp, ht⟩))
      · have ht' : topMatched tks k = false := by
          simpa using ht
        obtain ⟨v, hv⟩ := mem_keys.1 hk
        by_cases hb : matches_pattern k bks = true
        · refine List.mem_append_right _ (mem_keys_filter.2 ⟨v, hv, ?_⟩)
          simp [hb, ht']
        · have hb' : matches_pattern k bks = false := by
            simpa using hb
          have hmt : matches_pattern k tks = false := by
            by_contra hmt0
            have hmt' : matches_pattern k tks = true := by
              simpa using hmt0
            rw [matches_pattern, List.any_eq_true] at hmt'
            obtain ⟨p, hp, hf⟩ := hmt'
            have hc : caught k p = true := by
              by_cases hstar : '*' ∈ p.data
              · rw [caught, if_pos hstar]
                exact hf
              · rcases htop p hp with hstar' | hlit
                · exact absurd hstar' hstar
                · have hlit' : ∀ c ∈ p.data, c ≠ '*' ∧ c ≠ '?' ∧ c ≠ '[' :=
                    fun c hcp => ⟨fun e => hstar (e ▸ hcp),
                      fun e => hlit.1 (e ▸ hcp), fun e => hlit.2 (e ▸ hcp)⟩
                  have hkp : k = p := (fnmatch_literal hlit').1 hf
                  rw [caught, if_neg hstar, hkp]
                  exact beq_self_eq_true p
            have hany : topMatched tks k = true := by
              rw [topMatched, List.any_eq_true]
              exact ⟨p, hp, hc⟩
            rw [ht'] at hany
            exact Bool.false_ne_true hany
          refine List.mem_append_left _ (List.mem_append_right _
            (mem_keys_filter.2 ⟨v, hv, ?_⟩))
          simp [hmt, hb', ht']
  have hsubR : SubFm (reorderSpec fm tks bks) fm := by
    rw [reorderSpec]
    exact subFm_append (subFm_append (subFm_topSegment hfm) (subFm_filter hfm))
      (subFm_filter hfm)
  refine ⟨(List.perm_ext_iff_of_nodup hndR hfm).2 hmem, ?_⟩
  intro k
  by_cases hk : k ∈ keys fm
  · have hkR : k ∈ keys (reorderSpec fm tks bks) := (hmem k).2 hk
    obtain ⟨v, hv⟩ := mem_keys.1 hkR
    rw [dlookup_of_mem hndR hv]
    exact (hsubR (k, v) hv).symm
  · rw [dlookup_eq_none.2 (fun hkR => hk ((hmem k).1 hkR)),
      dlookup_eq_none.2 hk]

/-- Witness for the amended C1 at a concrete instance. -/
theorem C1_keyset_preservation_witness :
    (keys (reorder_frontmatter [("a", (1 : Nat)), ("b", 2)] ["b"] ["a"])).Perm
        (keys [("a", (1 : Nat)), ("b", 2)])
      ∧ ∀ k, dlookup k (reorder_frontmatter [("a", (1 : Nat)), ("b", 2)]
          ["b"] ["a"]) = dlookup k [("a", (1 : Nat)), ("b", 2)] :=
  C1_keyset_preservation (by decide) ["b"] ["a"] (by decide)

/-- Claim C2 is false as stated: `k1` matches the wildcard top pattern `k*`
and the bottom pattern `k1`, yet the output places it FIRST — before the
middle key `m` — not in the bottom segment, because the final
`ordered.update` rewrites the value of an existing key without moving it. -/
theorem C2_counterexample :
    fnmatch "k1" "k*" = true ∧ '*' ∈ "k*".data
      ∧ matches_pattern "k1" ["k1"] = true
      ∧ reorder_frontmatter [("m", (0 : Nat)), ("k1", 1)] ["k*"] ["k1"]
          = [("k1", 1), ("m", 0)] := by decide

/-- Claim C2 (amended): a key caught by a wildcard top pattern that also
matches a bottom pattern stays in the top segment of the output; the final
`ordered.update(bottom_matches)` rewrites its value in place without moving
it, so top placement — not bottom — wins the tie. -/
theorem C2_top_wins {V : Type} {fm : List (String × V)}
    (hfm : (keys fm).Nodup) {tks bks : List String} {k : String} {v : V}
    (hkv : (k, v) ∈ fm) {p : String} (hp : p ∈ tks)
    (hstar : '*' ∈ p.data) (hm : fnmatch k p = true)
    (_hb : matches_pattern k bks = true) :
    reorder_frontmatter fm tks bks
      = topSegment fm [] tks
        ++ fm.filter (fun kv => !matches_pattern kv.1 tks
            && !matches_pattern kv.1 bks && !topMatched tks kv.1)
        ++ fm.filter (fun kv => matches_pattern kv.1 bks
            && !topMatched tks kv.1)
      ∧ k ∈ keys (topSegment fm [] tks)
      ∧ k ∉ keys (fm.filter (fun kv => matches_pattern kv.1 bks
          && !topMatched tks kv.1)) := by
  have ht : topMatched tks k = true := by
    rw [topMatched, List.any_eq_true]
    exact ⟨p, hp, by rw [caught, if_pos hstar]; exact hm⟩
  refine ⟨reorder_eq_spec hfm tks bks, ?_, ?_⟩
  · exact mem_keys_topSegment.2 ⟨mem_keys.2 ⟨v, hkv⟩, by simp, ht⟩
  · intro hmem
    obtain ⟨w, _, hq⟩ := mem_keys_filter.1 hmem
    simp only [Bool.and_eq_true, Bool.not_eq_true'] at hq
    rw [hq.2] at ht
    exact Bool.false_ne_true ht

/-- Witness for the amended C2 at the counterexample instance. -/
theorem C2_top_wins_witness :
    "k1" ∈ keys (topSegment [("m", (0 : Nat)), ("k1", 1)] [] ["k*"])
      ∧ "k1" ∉ keys ([("m", (0 : Nat)), ("k1", 1)].filter
          (fun kv => matches_pattern kv.1 ["k1"] && !topMatched ["k*"] kv.1)) :=
  ⟨(@C2_top_wins Nat [("m", (0 : Nat)), ("k1", 1)] (by decide) ["k*"] ["k1"]
      "k1" 1 (by decide) "k*" (by decide) (by decide) (by decide)
      (by decide)).2.1,
    (@C2_top_wins Nat [("m", (0 : Nat)), ("k1", 1)] (by decide) ["k*"] ["k1"]
      "k1" 1 (by decide) "k*" (by decide) (by decide) (by decide)
      (by decide)).2.2⟩

/-- Claim C3: in the top pass a pattern is interpreted as a wildcard iff it
contains `*`: any `*`-free pattern — even one containing `?` or `[` — is
used only as an exact dictionary lookup there, while the middle-exclusion
test (`matches_pattern`) applies full glob semantics to the same pattern, as
the `a?` instance shows. -/
theorem C3_top_pass_exact_vs_glob :
    (∀ (V : Type) (fm : List (String × V)) (p : String), '*' ∉ p.data →
      addTopKeys fm [p]
        = match dlookup p fm with
          | some v => [(p, v)]
          | none => [])
      ∧ (∀ (V : Type) (fm : List (String × V)) (p : String), '*' ∈ p.data →
          addTopKeys fm [p] = insertAll fm (fun key => fnmatch key p) [])
      ∧ matches_pattern "ab" ["a?"] = true
      ∧ addTopKeys [("ab", (0 : Nat))] ["a?"] = []
      ∧ reorder_frontmatter [("ab", (0 : Nat))] ["a?"] [] = [] := by
  refine ⟨?_, ?_, by decide, by decide, by decide⟩
  · intro V fm p hstar
    rw [addTopKeys, List.foldl_cons, if_neg hstar]
    cases hl : dlookup p fm with
    | some v => simp [dinsert]
    | none => simp
  · intro V fm p hstar
    rw [addTopKeys, List.foldl_cons, if_pos hstar, List.foldl_nil]

/-- Witness for C3's universally quantified parts at concrete instances. -/
theorem C3_witness :
    addTopKeys [("x", (5 : Nat))] ["x"] = [("x", 5)]
      ∧ addTopKeys [("x", (5 : Nat)), ("y", 6)] ["*"]
          = insertAll [("x", (5 : Nat)), ("y", 6)] (fun key => fnmatch key "*") [] :=
  ⟨(C3_top_pass_exact_vs_glob.1 Nat [("x", (5 : Nat))] "x" (by decide)).trans
      (by decide),
    C3_top_pass_exact_vs_glob.2.1 Nat [("x", (5 : Nat)), ("y", 6)] "*"
      (by decide)⟩

/-- Claim C4: reordering is idempotent — applying the reorderer a second time
with the same ruleset changes nothing, including the order of keys. -/
theorem C4_reorder_idempotent {V : Type} {fm : List (String × V)}
    (hfm : (keys fm).Nodup) (tks bks : List String) :
    reorder_frontmatter (reorder_frontmatter fm tks bks) tks bks
      = reorder_frontmatter fm tks bks := by
  rw [reorder_eq_spec hfm, reorder_eq_spec (nodup_keys_reorderSpec hfm tks bks),
    reorderSpec_idem]

/-- Witness for C4 at a concrete instance exercising top, middle and bottom
segments. -/
theorem C4_witness :
    reorder_frontmatter (reorder_frontmatter
        [("a", (1 : Nat)), ("tag_b", 2), ("c", 3)] ["c"] ["tag_*"])
        ["c"] ["tag_*"]
      = reorder_frontmatter [("a", (1 : Nat)), ("tag_b", 2), ("c", 3)]
          ["c"] ["tag_*"] :=
  C4_reorder_idempotent (by decide) ["c"] ["tag_*"]

/-- Claim C5: with both pattern lists empty the reorderer is the identity —
same keys, same order, same values. -/
theorem C5_empty_ruleset_identity {V : Type} {fm : List (String × V)}
    (hfm : (keys fm).Nodup) :
    reorder_frontmatter fm [] [] = fm := by
  have hm : fm.filter (fun kv => !matches_pattern kv.1 ([] : List String)
      && !matches_pattern kv.1 ([] : List String)
      && !topMatched ([] : List String) kv.1) = fm :=
    List.filter_eq_self.2 fun kv _ => by simp [matches_pattern, topMatched]
  have hb : fm.filter (fun kv => matches_pattern kv.1 ([] : List String)
      && !topMatched ([] : List String) kv.1) = [] :=
    List.filter_eq_nil_iff.2 fun kv _ => by simp [matches_pattern]
  rw [reorder_eq_spec hfm, reorderSpec, topSegment, hm, hb,
    List.nil_append, List.append_nil]

/-- Witness for C5 at a concrete instance. -/
theorem C5_witness :
    reorder_frontmatter [("a", (1 : Nat)), ("b", 2)] [] []
      = [("a", (1 : Nat)), ("b", 2)] :=
  C5_empty_ruleset_identity (by decide)

/-- Claim C6: top precedence — with M = {a:1, b:2, c:3},
topPatterns = ["c", "a"] and no bottom patterns, the output order is exactly
[c, a, b]: top-pattern declaration order is the primary sort key of the top
segment. -/
theorem C6_top_precedence :
    reorder_frontmatter [("a", (1 : Nat)), ("b", 2), ("c", 3)] ["c", "a"] []
      = [("c", 3), ("a", 1), ("b", 2)] := by decide

/-- Claim C7: a wildcard top pattern appends every matching key in original
metadata order — with M = {x1:1, y:2, x2:3} and topPatterns = ["x*"], the
output starts with x1, x2 (source order) followed by y. -/
theorem C7_wildcard_source_order :
    reorder_frontmatter [("x1", (1 : Nat)), ("y", 2), ("x2", 3)] ["x*"] []
      = [("x1", 1), ("x2", 3), ("y", 2)] := by decide

/-- Claim C8: bottom patterns decide membership only, never sequence — with
M = {a:1, tag_b:2, c:3, tag_a:4} and bottomPatterns = ["tag_*"], the output
is [a, c, tag_b, tag_a]: bottom keys keep their original relative order. -/
theorem C8_bottom_source_order :
    reorder_frontmatter [("a", (1 : Nat)), ("tag_b", 2), ("c", 3), ("tag_a", 4)]
      [] ["tag_*"]
      = [("a", 1), ("c", 3), ("tag_b", 2), ("tag_a", 4)] := by decide

/-- Claim C9: whenever the delimited region exists (the frontmatter regex
matches) but its content fails to parse or parses to a non-mapping value
(scalar or sequence), the Block Parser reports "block absent" — empty map,
the input as body, presence flag false — instead of raising an error. -/
theorem C9_nonmapping_is_absent (parse : String → Except Unit Yaml)
    (content : String) (g1 g2 : List Char)
    (hm : matchFM content.data = some (g1, g2))
    (hp : (∃ e, parse (String.mk g1) = .error e)
      ∨ ∃ y, parse (String.mk g1) = .ok y ∧ y.isMap = false) :
    extract_frontmatter parse content = ([], content, false) := by
  rcases hp with ⟨e, he⟩ | ⟨y, hy, hmap⟩
  · simp only [extract_frontmatter, hm, he]
  · simp only [extract_frontmatter, hm, hy]
    cases y
    case map entries => simp [Yaml.isMap] at hmap
    all_goals rfl

/-- Witness for C9: a delimited region whose content fails to parse. -/
theorem C9_witness :
    extract_frontmatter (fun _ => Except.error ()) "---\na\n---\nb"
      = ([], "---\na\n---\nb", false) :=
  C9_nonmapping_is_absent (fun _ => Except.error ()) "---\na\n---\nb"
    ['a'] ['b'] (by decide) (Or.inl ⟨(), rfl⟩)

theorem no_newline_in_ws_run {t : List Char}
    (h : '\n' ∉ t.takeWhile pyIsSpace) :
    ∀ k, k ≤ wsRunLen t → t.get? k ≠ some '\n' := by
  induction t with
  | nil => intro k _ hk; simp at hk
  | cons c t' ih =>
    intro k hk
    by_cases hc : pyIsSpace c = true
    · rw [List.takeWhile_cons, if_pos hc, List.mem_cons] at h
      push_neg at h
      cases k with
      | zero =>
        intro hgt
        simp only [List.get?] at hgt
        exact h.1 (Option.some_inj.1 hgt).symm
      | succ k' =>
        rw [wsRunLen, List.takeWhile_cons, if_pos hc, List.length_cons,
          Nat.succ_le_succ_iff] at hk
        exact ih h.2 k' hk
    · have h0 : wsRunLen (c :: t') = 0 := by
        simp [wsRunLen, List.takeWhile_cons, hc]
      rw [h0, Nat.le_zero] at hk
      subst hk
      intro hgt
      simp only [List.get?] at hgt
      have : pyIsSpace c = true := by
        rw [Option.some_inj.1 hgt]
        decide
      exact hc this

/-- If the document does not begin with a delimiter line, the frontmatter
regex cannot match. -/
theorem matchFM_eq_none_of_no_delimiter {content : String}
    (h : beginsWithDelimiterLine content = false) :
    matchFM content.data = none := by
  rw [matchFM.eq_def]
  split
  · rename_i t heq
    simp only [beginsWithDelimiterLine, heq] at h
    have h' : '\n' ∉ t.takeWhile pyIsSpace := by
      simpa using h
    rw [List.findSome?_eq_none_iff]
    intro k hk
    have hk' : k ≤ wsRunLen t := by
      rw [List.mem_reverse, List.mem_range] at hk
      omega
    rw [if_neg (no_newline_in_ws_run h' k hk')]
  · rfl

/-- Claim C10: a document that does not begin with a delimiter line at
position 0 is reported as having no metadata block: the parser returns the
empty map and the full input unchanged as body with presence flag false, and
`process_file` stops without invoking the reorderer or rewriting the file. -/
theorem C10_no_delimiter_unchanged (parse : String → Except Unit Yaml)
    (dump : List (String × Yaml) → String) (content : String)
    (tks bks : List String)
    (h : beginsWithDelimiterLine content = false) :
    extract_frontmatter parse content = ([], content, false)
      ∧ process_file parse dump content tks bks = none := by
  have hm : matchFM content.data = none := matchFM_eq_none_of_no_delimiter h
  have he : extract_frontmatter parse content = ([], content, false) := by
    simp only [extract_frontmatter, hm]
  exact ⟨he, by simp only [process_file, he]⟩

/-- Witness for C10 at a concrete document. -/
theorem C10_witness :
    extract_frontmatter (fun _ => Except.error ()) "hello"
        = ([], "hello", false)
      ∧ process_file (fun _ => Except.error ()) (fun _ => "") "hello" [] []
          = none :=
  C10_no_delimiter_unchanged (fun _ => Except.error ()) (fun _ => "")
    "hello" [] [] (by decide)

end ReorderFM
